import Mathlib

/-!
Verification of `rpw_processing.py` (GC–MS LibRes cleaning pipeline).

The Python source is shallowly embedded: pandas DataFrames become lists of
rows of optional cells with a list of column names, the two `re.search`
calls become explicit leftmost-match scans over character lists, and each
failure (`raise ValueError` / `raise KeyError` / the downstream pandas
`KeyError`) becomes an `Except` error value.
-/

namespace Rpw

/-! ## String utilities

Python `str.lower` restricted to ASCII (every string in the pipeline's
contracts is ASCII), substring containment (`"x" in s`), and character-list
matching used to model the two regular expressions. -/

/-- ASCII lower-casing of one character (model of `str.lower` per char). -/
def lowerChar (c : Char) : Char :=
  if 'A' ≤ c ∧ c ≤ 'Z' then Char.ofNat (c.toNat + 32) else c

/-- Model of Python `s.lower()` (ASCII range). -/
def lowerStr (s : String) : String := ⟨s.toList.map lowerChar⟩

/-- `chPre n l`: `n` is a leading segment of `l` (character lists). -/
def chPre : List Char → List Char → Bool
  | [], _ => true
  | _ :: _, [] => false
  | a :: as, b :: bs => a == b && chPre as bs

/-- `chSub n l`: `n` occurs as a contiguous segment somewhere in `l`
(model of Python `n in l` on strings). -/
def chSub (n : List Char) : List Char → Bool
  | [] => n.isEmpty
  | b :: bs => chPre n (b :: bs) || chSub n bs

/-- Model of Python `needle in hay` for strings. -/
def strHas (needle hay : String) : Bool := chSub needle.toList hay.toList

/-- The proposition "`n` occurs contiguously inside `l`". -/
def HasSub (n l : List Char) : Prop := ∃ p t, l = p ++ n ++ t

theorem chPre_iff (n l : List Char) : chPre n l = true ↔ ∃ t, l = n ++ t := by
  induction n generalizing l with
  | nil => simp [chPre]
  | cons a as ih =>
    cases l with
    | nil => simp [chPre]
    | cons b bs =>
      simp only [chPre, Bool.and_eq_true, beq_iff_eq]
      constructor
      · rintro ⟨rfl, h⟩
        obtain ⟨t, rfl⟩ := (ih bs).1 h
        exact ⟨t, rfl⟩
      · rintro ⟨t, h⟩
        cases h
        exact ⟨rfl, (ih (as ++ t)).2 ⟨t, rfl⟩⟩

theorem chSub_iff (n l : List Char) : chSub n l = true ↔ HasSub n l := by
  induction l with
  | nil =>
    simp only [chSub, HasSub, List.isEmpty_iff]
    constructor
    · rintro rfl; exact ⟨[], [], rfl⟩
    · rintro ⟨p, t, h⟩
      rcases List.append_eq_nil.1 (List.append_eq_nil.1 h.symm).1 with ⟨-, h1⟩
      exact h1
  | cons b bs ih =>
    simp only [chSub, Bool.or_eq_true, chPre_iff, ih, HasSub]
    constructor
    · rintro (⟨t, h⟩ | ⟨p, t, h⟩)
      · exact ⟨[], t, by simp [h]⟩
      · exact ⟨b :: p, t, by simp [h]⟩
    · rintro ⟨p, t, h⟩
      cases p with
      | nil => exact Or.inl ⟨t, by simpa using h⟩
      | cons x xs =>
        rcases h with h
        simp only [List.cons_append] at h
        cases h
        exact Or.inr ⟨xs, t, rfl⟩

theorem HasSub.of_cons {n : List Char} {b : Char} {bs : List Char}
    (h : HasSub n bs) : HasSub n (b :: bs) := by
  obtain ⟨p, t, rfl⟩ := h
  exact ⟨b :: p, t, rfl⟩

/-! ## Filename metadata parser (`extract_metadata_from_filename`) -/

/-- Model of `re.search(r"(\d+)\s*h", name)`: leftmost position carrying a
digit run that, after optional whitespace, is followed by `h`; returns the
digit run (capture group 1).  A shorter-than-maximal digit run can never
succeed (the next character is a digit, neither whitespace nor `h`), so the
backtracking regex engine accepts exactly the maximal run. -/
def matchTimeAux : List Char → Option (List Char)
  | [] => none
  | c :: rest =>
    if c.isDigit then
      match (((c :: rest).dropWhile Char.isDigit).dropWhile Char.isWhitespace) with
      | 'h' :: _ => some ((c :: rest).takeWhile Char.isDigit)
      | _ => matchTimeAux rest
    else matchTimeAux rest

/-- Numeric value of a run of decimal digits (model of Python `int`). -/
def natOfDigits (l : List Char) : Nat :=
  l.foldl (fun a c => 10 * a + (c.toNat - 48)) 0

/-- Model of `re.search(r"-(char|dvb)-(\d+)", name)`: leftmost occurrence of
`-char-` or `-dvb-` immediately followed by at least one digit; returns the
numeric value of the maximal digit run (capture group 2). -/
def matchSampleAux : List Char → Option Nat
  | [] => none
  | c :: rest =>
    if chPre "-char-".toList (c :: rest) then
      match ((c :: rest).drop 6).takeWhile Char.isDigit with
      | [] => matchSampleAux rest
      | d :: ds => some (natOfDigits (d :: ds))
    else if chPre "-dvb-".toList (c :: rest) then
      match ((c :: rest).drop 5).takeWhile Char.isDigit with
      | [] => matchSampleAux rest
      | d :: ds => some (natOfDigits (d :: ds))
    else matchSampleAux rest

/-- The record returned by `extract_metadata_from_filename`. -/
structure SampleMetadata where
  group : Option String
  timepoint : Option String
  adsorbent : Option String
  sample : Option Nat
  source_file : String
deriving DecidableEq, Repr

/-- Model of `extract_metadata_from_filename` (lines 7–41 of
`rpw_processing.py`). -/
def extract_metadata_from_filename (filename : String) : SampleMetadata :=
  let name := lowerStr filename
  let timepoint := (matchTimeAux name.toList).map (fun ds => (⟨ds ++ ['h']⟩ : String))
  let adsorbent :=
    if strHas "char" name then some "char"
    else if strHas "dvb" name then some "dvb"
    else none
  let sample := matchSampleAux name.toList
  let group :=
    if strHas "healthy" name ∧ ¬ strHas "infested" name then
      some (if strHas "masa" name then "healthy+masa" else "healthy")
    else if strHas "infested" name then
      some (if strHas "masa" name then "infested+masa" else "infested")
    else none
  { group := group, timepoint := timepoint, adsorbent := adsorbent,
    sample := sample, source_file := filename }

/-! ## Tabular model

A pandas DataFrame is modelled as a list of column names together with rows
of optional cells (`none` = NaN).  The cell type `α` is the one type of the
values a given sheet holds; it carries the linear order pandas uses for
`idxmax` and `sort_values`. -/

/-- One row: a list of optional cells, positionally aligned with the
column-name list. -/
abbrev Row (α : Type) := List (Option α)

/-- A DataFrame: named columns plus rows of optional cells. -/
structure DataFrame (α : Type) where
  cols : List String
  rows : List (Row α)
deriving DecidableEq, Repr

/-- Well-formed frame: every row has one cell per column. -/
def DataFrame.WF {α : Type} (df : DataFrame α) : Prop :=
  ∀ r ∈ df.rows, List.length r = df.cols.length

instance {α : Type} [DecidableEq α] (df : DataFrame α) : Decidable df.WF := by
  unfold DataFrame.WF; infer_instance

variable {α β γ : Type}

/-- Cell of a row at a column position (`none` past the end). -/
def cell (r : Row α) (i : Nat) : Option α := (r.get? i).getD none

/-- `df.dropna(how="all")`: discard rows whose cells are all null. -/
def dropEmptyRows (rows : List (Row α)) : List (Row α) :=
  rows.filter (fun r => !(r.all (fun c => c.isNone)))

/-- Pandas `Series.ffill` with running last non-null value. -/
def ffillAux (last : Option α) : List (Option α) → List (Option α)
  | [] => []
  | none :: rest => last :: ffillAux last rest
  | some a :: rest => some a :: ffillAux (some a) rest

/-- Pandas `Series.ffill`: each null takes the nearest preceding non-null
value (nulls before the first value stay null). -/
def ffill (l : List (Option α)) : List (Option α) := ffillAux none l

/-- Index of the first element satisfying `p` (model of "first column such
that ..."). -/
def idxHit (p : β → Bool) : List β → Option Nat
  | [] => none
  | b :: bs => if p b then some 0 else (idxHit p bs).map (· + 1)

/-- First element satisfying `p`. -/
def findFirst (p : β → Bool) : List β → Option β
  | [] => none
  | b :: bs => if p b then some b else findFirst p bs

/-- Apply a fallible function to every element; `none` as soon as one
application fails. -/
def seqMap (f : β → Option γ) : List β → Option (List γ)
  | [] => some []
  | b :: bs =>
    match f b, seqMap f bs with
    | some c, some cs => some (c :: cs)
    | _, _ => none

/-- The distinct values of a list (one occurrence each). -/
def dedupKeys [DecidableEq α] : List α → List α
  | [] => []
  | a :: as =>
    let r := dedupKeys as
    if a ∈ r then r else a :: r

/-- Maximum of a list, `none` when empty (model of the maximum pandas
`idxmax` attains over the non-null entries). -/
def listMax [LinearOrder α] : List α → Option α
  | [] => none
  | a :: as =>
    match listMax as with
    | none => some a
    | some b => some (max a b)

/-! ## Top-hit reducer (`extract_top_hits`, lines 78–113) -/

/-- Line 89: `"compound" in str(c).lower()`. -/
def isCompoundCol (c : String) : Bool := strHas "compound" (lowerStr c)

/-- Lines 88–95: position of the first column whose name contains
`"compound"` case-insensitively. -/
def compoundIdxOf (cols : List String) : Option Nat := idxHit isCompoundCol cols

/-- Line 98 / 110: position of the column literally named `"Quality"`;
its absence surfaces as the downstream key-lookup failure. -/
def qualityIdxOf (cols : List String) : Option Nat :=
  idxHit (fun c => decide (c = "Quality")) cols

/-- Position of the (first) column carrying a given name, for a name known
to be present; `cols.length` otherwise. -/
def colPos (cols : List String) (name : String) : Nat :=
  (idxHit (fun c => decide (c = name)) cols).getD cols.length

/-- Pandas column assignment `df[name] = vals`: overwrite the column in
place when the name exists, else append it as a new last column. -/
def setDfCol (cols : List String) (rows : List (Row α)) (name : String)
    (vals : List (Option α)) : List String × List (Row α) :=
  match idxHit (fun c => decide (c = name)) cols with
  | some k => (cols, (rows.zip vals).map (fun p => p.1.set k p.2))
  | none => (cols ++ [name], (rows.zip vals).map (fun p => p.1 ++ [p.2]))

/-- Lines 101–104: drop all-null rows, then assign the forward-filled
compound column as column `"compound_id"`.  Returns the new header and the
new rows. -/
def prepped [DecidableEq α] (df : DataFrame α) (ci : Nat) :
    List String × List (Row α) :=
  setDfCol df.cols (dropEmptyRows df.rows) "compound_id"
    (ffill ((dropEmptyRows df.rows).map (fun r => cell r ci)))

/-- Position of the `"compound_id"` column after the assignment. -/
def cidPos [DecidableEq α] (df : DataFrame α) (ci : Nat) : Nat :=
  colPos (prepped df ci).1 "compound_id"

/-- Line 107: `dropna(subset=["compound_id"])`. -/
def rows2Of [DecidableEq α] (df : DataFrame α) (ci : Nat) : List (Row α) :=
  (prepped df ci).2.filter (fun r => (cell r (cidPos df ci)).isSome)

/-- Line 110: the rows of one `groupby("compound_id")` group, in the
table's current order. -/
def groupOf [DecidableEq α] (rows : List (Row α)) (ci : Nat) (k : α) :
    List (Row α) :=
  rows.filter (fun r => decide (cell r ci = some k))

/-- The maximum `Quality` value of a group (nulls skipped, as pandas
`idxmax` does). -/
def maxQual [LinearOrder α] (grp : List (Row α)) (qi : Nat) : Option α :=
  listMax (grp.filterMap (fun r => cell r qi))

/-- Line 110: `idxmax` for one group — the first row (lowest index in the
current order) attaining the group's maximum quality; `none` when every
quality in the group is null (pandas raises there). -/
def pickTop [LinearOrder α] [DecidableEq α] (rows : List (Row α)) (ci qi : Nat)
    (k : α) : Option (Row α) :=
  match maxQual (groupOf rows ci k) qi with
  | none => none
  | some m => findFirst (fun r => decide (cell r qi = some m)) (groupOf rows ci k)

/-- Lines 110–111: the distinct compound ids in ascending order —
`groupby` (which sorts its keys) followed by `sort_values("compound_id")`
(a stable re-sort of an already key-sorted selection). -/
def skeysOf [LinearOrder α] [DecidableEq α] (df : DataFrame α) (ci : Nat) :
    List α :=
  List.insertionSort (· ≤ ·)
    (dedupKeys ((rows2Of df ci).filterMap (fun r => cell r (cidPos df ci))))

/-- The reducer's failures: no compound-like column (the `KeyError` raised
on line 92), no `Quality` column (the downstream pandas `KeyError`), or a
group whose qualities are all null (pandas `idxmax` failure). -/
inductive THError where
  | missingCompound (available : List String)
  | missingQuality (available : List String)
  | allNullQuality
deriving DecidableEq, Repr

/-- Lines 100–113 of `extract_top_hits`, once the compound column `ci` and
quality column `qi` are resolved. -/
def thStage [LinearOrder α] [DecidableEq α] (df : DataFrame α) (ci qi : Nat) :
    Except THError (DataFrame α) :=
  match seqMap (pickTop (rows2Of df ci) (cidPos df ci) qi) (skeysOf df ci) with
  | none => Except.error THError.allNullQuality
  | some rs => Except.ok ⟨(prepped df ci).1, rs⟩

/-- Model of `extract_top_hits` (lines 78–113 of `rpw_processing.py`).
The `Quality` lookup is checked before the pure intermediate steps; in the
source it fails at line 110, after steps that neither fail nor produce
output, so the observable behaviour is the same. -/
def extract_top_hits [LinearOrder α] [DecidableEq α] (df : DataFrame α) :
    Except THError (DataFrame α) :=
  match compoundIdxOf df.cols with
  | none => Except.error (THError.missingCompound df.cols)
  | some ci =>
    match qualityIdxOf df.cols with
    | none => Except.error (THError.missingQuality df.cols)
    | some qi => thStage df ci qi

/-- The specification's count: the number of distinct non-null compound
identifiers after dropping all-empty rows and forward-filling the compound
column. -/
def ffilledDistinctCount [DecidableEq α] (df : DataFrame α) : Nat :=
  match compoundIdxOf df.cols with
  | none => 0
  | some ci =>
    (((ffill ((dropEmptyRows df.rows).map (fun r => cell r ci))).filterMap id).toFinset).card

/-- The values of the (first) column named `name`. -/
def colVals (df : DataFrame α) (name : String) : List (Option α) :=
  df.rows.map (fun r => cell r (colPos df.cols name))

/-! ## Helper lemmas on the list primitives -/

theorem cell_set_self {r : Row α} {v : Option α} :
    ∀ {k : Nat}, k < r.length → cell (r.set k v) k = v := by
  induction r with
  | nil => intro k h; simp at h
  | cons a as ih =>
    intro k h
    cases k with
    | zero => simp [cell]
    | succ k =>
      simpa [cell, List.set] using ih (Nat.lt_of_succ_lt_succ h)

theorem cell_set_ne {r : Row α} {v : Option α} :
    ∀ {k i : Nat}, k ≠ i → cell (r.set k v) i = cell r i := by
  induction r with
  | nil => intro k i _; simp [List.set]
  | cons a as ih =>
    intro k i hne
    cases k with
    | zero =>
      cases i with
      | zero => exact absurd rfl hne
      | succ i => simp [cell, List.set]
    | succ k =>
      cases i with
      | zero => simp [cell, List.set]
      | succ i =>
        simpa [cell, List.set] using ih (fun h => hne (by rw [h]))

theorem cell_append_lt {r l : Row α} :
    ∀ {i : Nat}, i < r.length → cell (r ++ l) i = cell r i := by
  induction r with
  | nil => intro i h; simp at h
  | cons a as ih =>
    intro i h
    cases i with
    | zero => simp [cell]
    | succ i => simpa [cell] using ih (Nat.lt_of_succ_lt_succ h)

theorem cell_append_len {v : Option α} :
    ∀ {r : Row α}, cell (r ++ [v]) r.length = v := by
  intro r
  induction r with
  | nil => simp [cell]
  | cons a as ih =>
    show cell (as ++ [v]) as.length = v
    exact ih

theorem ffillAux_length (last : Option α) (l : List (Option α)) :
    (ffillAux last l).length = l.length := by
  induction l generalizing last with
  | nil => rfl
  | cons a as ih => cases a <;> simp [ffillAux, ih]

theorem ffill_length (l : List (Option α)) : (ffill l).length = l.length :=
  ffillAux_length none l

theorem ffillAux_idem (last : Option α) (l : List (Option α)) :
    ffillAux last (ffillAux last l) = ffillAux last l := by
  induction l generalizing last with
  | nil => rfl
  | cons a as ih =>
    cases a with
    | none => cases last <;> simp [ffillAux, ih]
    | some b => simp [ffillAux, ih]

theorem seqMap_length {f : β → Option γ} :
    ∀ {l : List β} {rs : List γ}, seqMap f l = some rs → rs.length = l.length := by
  intro l
  induction l with
  | nil => intro rs h; simp only [seqMap, Option.some.injEq] at h; subst h; rfl
  | cons b bs ih =>
    intro rs h
    simp only [seqMap] at h
    cases hf : f b with
    | none => rw [hf] at h; simp at h
    | some c =>
      rw [hf] at h
      cases hs : seqMap f bs with
      | none => rw [hs] at h; simp at h
      | some cs =>
        rw [hs] at h
        simp only [Option.some.injEq] at h
        subst h
        simp [ih hs]

theorem seqMap_mem {f : β → Option γ} :
    ∀ {l : List β} {rs : List γ}, seqMap f l = some rs →
      ∀ r ∈ rs, ∃ a ∈ l, f a = some r := by
  intro l
  induction l with
  | nil =>
    intro rs h r hr
    simp only [seqMap, Option.some.injEq] at h
    subst h; simp at hr
  | cons b bs ih =>
    intro rs h r hr
    simp only [seqMap] at h
    cases hf : f b with
    | none => rw [hf] at h; simp at h
    | some c =>
      rw [hf] at h
      cases hs : seqMap f bs with
      | none => rw [hs] at h; simp at h
      | some cs =>
        rw [hs] at h
        simp only [Option.some.injEq] at h
        subst h
        rcases List.mem_cons.1 hr with rfl | hr
        · exact ⟨b, List.mem_cons_self b bs, hf⟩
        · obtain ⟨a, ha, hfa⟩ := ih hs r hr
          exact ⟨a, List.mem_cons_of_mem b ha, hfa⟩

theorem seqMap_map {δ : Type} {f : β → Option γ} {g : γ → δ} {h : β → δ} :
    ∀ {l : List β} {rs : List γ}, seqMap f l = some rs →
      (∀ a r, f a = some r → g r = h a) → rs.map g = l.map h := by
  intro l
  induction l with
  | nil =>
    intro rs hsm _
    simp only [seqMap, Option.some.injEq] at hsm
    subst hsm; rfl
  | cons b bs ih =>
    intro rs hsm hgh
    simp only [seqMap] at hsm
    cases hf : f b with
    | none => rw [hf] at hsm; simp at hsm
    | some c =>
      rw [hf] at hsm
      cases hs : seqMap f bs with
      | none => rw [hs] at hsm; simp at hsm
      | some cs =>
        rw [hs] at hsm
        simp only [Option.some.injEq] at hsm
        subst hsm
        simp [hgh b c hf, ih hs hgh]

theorem idxHit_none {p : β → Bool} :
    ∀ {l : List β}, idxHit p l = none ↔ ∀ b ∈ l, p b = false := by
  intro l
  induction l with
  | nil => simp [idxHit]
  | cons b bs ih =>
    constructor
    · intro h c hc
      simp only [idxHit] at h
      by_cases hb : p b
      · rw [if_pos hb] at h; simp at h
      · rcases List.mem_cons.1 hc with rfl | hc
        · exact Bool.eq_false_iff.2 hb
        · rw [if_neg hb] at h
          exact ih.1 (Option.map_eq_none'.1 h) c hc
    · intro h
      have hb : p b = false := h b (List.mem_cons_self b bs)
      simp only [idxHit, hb, Bool.false_eq_true, if_false, Option.map_eq_none']
      exact ih.2 (fun c hc => h c (List.mem_cons_of_mem b hc))

theorem idxHit_get {p : β → Bool} :
    ∀ {l : List β} {i : Nat}, idxHit p l = some i →
      ∃ h : i < l.length, p (l.get ⟨i, h⟩) = true ∧
        ∀ j (hj : j < i), p (l.get ⟨j, Nat.lt_trans hj h⟩) = false := by
  intro l
  induction l with
  | nil => intro i h; simp [idxHit] at h
  | cons b bs ih =>
    intro i h
    simp only [idxHit] at h
    by_cases hb : p b
    · rw [if_pos hb] at h
      simp only [Option.some.injEq] at h
      subst h
      exact ⟨Nat.succ_pos _, hb, fun j hj => absurd hj (Nat.not_lt_zero j)⟩
    · rw [if_neg hb] at h
      rcases Option.map_eq_some'.1 h with ⟨i', hi', rfl⟩
      obtain ⟨hlt, hp, hfirst⟩ := ih hi'
      refine ⟨Nat.succ_lt_succ hlt, hp, ?_⟩
      intro j hj
      cases j with
      | zero => exact Bool.eq_false_iff.2 hb
      | succ j => exact hfirst j (Nat.lt_of_succ_lt_succ hj)

theorem idxHit_lt {p : β → Bool} {l : List β} {i : Nat}
    (h : idxHit p l = some i) : i < l.length :=
  (idxHit_get h).1

theorem idxHit_append_some {p : β → Bool} :
    ∀ {l₁ : List β} {i : Nat} (l₂ : List β), idxHit p l₁ = some i →
      idxHit p (l₁ ++ l₂) = some i := by
  intro l₁
  induction l₁ with
  | nil => intro i l₂ h; simp [idxHit] at h
  | cons b bs ih =>
    intro i l₂ h
    rw [List.cons_append]
    simp only [idxHit] at h ⊢
    by_cases hb : p b
    · rw [if_pos hb] at h ⊢; exact h
    · rw [if_neg hb] at h ⊢
      rcases Option.map_eq_some'.1 h with ⟨i', hi', rfl⟩
      rw [ih l₂ hi']
      rfl

theorem idxHit_append_self {l : List String} {name : String}
    (h : idxHit (fun c => decide (c = name)) l = none) :
    idxHit (fun c => decide (c = name)) (l ++ [name]) = some l.length := by
  induction l with
  | nil => simp [idxHit]
  | cons b bs ih =>
    rw [List.cons_append]
    simp only [idxHit] at h ⊢
    by_cases hb : (fun c => decide (c = name)) b
    · rw [if_pos hb] at h; simp at h
    · rw [if_neg hb] at h ⊢
      rw [ih (Option.map_eq_none'.1 h)]
      rfl

theorem idxHit_map {f : β → γ} {p : γ → Bool} :
    ∀ (l : List β), idxHit p (l.map f) = idxHit (fun b => p (f b)) l := by
  intro l
  induction l with
  | nil => rfl
  | cons b bs ih => simp only [List.map_cons, idxHit, ih]

theorem idxHit_congr {p q : β → Bool} :
    ∀ {l : List β}, (∀ b ∈ l, p b = q b) → idxHit p l = idxHit q l := by
  intro l
  induction l with
  | nil => intro _; rfl
  | cons b bs ih =>
    intro h
    simp only [idxHit, h b (List.mem_cons_self b bs),
      ih (fun c hc => h c (List.mem_cons_of_mem b hc))]

theorem idxHit_isSome_of_mem {p : β → Bool} {l : List β} {b : β}
    (hb : b ∈ l) (hp : p b = true) : idxHit p l ≠ none := by
  intro h
  rw [idxHit_none.1 h b hb] at hp
  exact Bool.false_ne_true hp

theorem colPos_get {cols : List String} {name : String} (h : name ∈ cols) :
    ∃ hlt : colPos cols name < cols.length,
      cols.get ⟨colPos cols name, hlt⟩ = name := by
  cases hi : idxHit (fun c => decide (c = name)) cols with
  | none => exact absurd hi (idxHit_isSome_of_mem h (by simp))
  | some i =>
    obtain ⟨hlt, hp, -⟩ := idxHit_get hi
    refine ⟨by simpa [colPos, hi] using hlt, ?_⟩
    have := of_decide_eq_true hp
    simpa [colPos, hi] using this

theorem findFirst_some {p : β → Bool} :
    ∀ {l : List β} {a : β}, findFirst p l = some a →
      ∃ i, ∃ h : i < l.length, l.get ⟨i, h⟩ = a ∧ p a = true ∧
        ∀ j (hj : j < i), p (l.get ⟨j, Nat.lt_trans hj h⟩) = false := by
  intro l
  induction l with
  | nil => intro a h; simp [findFirst] at h
  | cons b bs ih =>
    intro a h
    simp only [findFirst] at h
    by_cases hb : p b
    · rw [if_pos hb] at h
      simp only [Option.some.injEq] at h
      subst h
      exact ⟨0, Nat.succ_pos _, rfl, hb, fun j hj => absurd hj (Nat.not_lt_zero j)⟩
    · rw [if_neg hb] at h
      obtain ⟨i, hlt, hget, hp, hfirst⟩ := ih h
      refine ⟨i + 1, Nat.succ_lt_succ hlt, hget, hp, ?_⟩
      intro j hj
      cases j with
      | zero => exact Bool.eq_false_iff.2 hb
      | succ j => exact hfirst j (Nat.lt_of_succ_lt_succ hj)

theorem findFirst_mem {p : β → Bool} {l : List β} {a : β}
    (h : findFirst p l = some a) : a ∈ l ∧ p a = true := by
  obtain ⟨i, hlt, hget, hp, -⟩ := findFirst_some h
  exact ⟨hget ▸ List.get_mem l i hlt, hp⟩

theorem findFirst_at {p : β → Bool} :
    ∀ {l : List β} {i : Nat} (h : i < l.length),
      p (l.get ⟨i, h⟩) = true →
      (∀ j (hj : j < i), p (l.get ⟨j, Nat.lt_trans hj h⟩) = false) →
      findFirst p l = some (l.get ⟨i, h⟩) := by
  intro l
  induction l with
  | nil => intro i h; simp at h
  | cons b bs ih =>
    intro i h hp hfirst
    cases i with
    | zero =>
      have hb : p b = true := hp
      show findFirst p (b :: bs) = some b
      simp [findFirst, hb]
    | succ i =>
      have hb : p b = false := hfirst 0 (Nat.succ_pos i)
      have : findFirst p bs = some (bs.get ⟨i, Nat.lt_of_succ_lt_succ h⟩) :=
        ih (Nat.lt_of_succ_lt_succ h) hp
          (fun j hj => hfirst (j + 1) (Nat.succ_lt_succ hj))
      simpa [findFirst, hb] using this

theorem dedupKeys_mem [DecidableEq α] :
    ∀ (l : List α) (a : α), a ∈ dedupKeys l ↔ a ∈ l := by
  intro l
  induction l with
  | nil => intro a; simp [dedupKeys]
  | cons b bs ih =>
    intro a
    simp only [dedupKeys]
    by_cases hb : b ∈ dedupKeys bs
    · rw [if_pos hb, ih a]
      constructor
      · exact fun h => List.mem_cons_of_mem b h
      · intro h
        rcases List.mem_cons.1 h with rfl | h
        · exact (ih a).1 hb
        · exact h
    · rw [if_neg hb]
      simp only [List.mem_cons, ih]

theorem dedupKeys_nodup [DecidableEq α] :
    ∀ (l : List α), (dedupKeys l).Nodup := by
  intro l
  induction l with
  | nil => simp [dedupKeys]
  | cons b bs ih =>
    simp only [dedupKeys]
    by_cases hb : b ∈ dedupKeys bs
    · rw [if_pos hb]; exact ih
    · rw [if_neg hb]; exact List.nodup_cons.2 ⟨hb, ih⟩

theorem dedupKeys_length [DecidableEq α] (l : List α) :
    (dedupKeys l).length = l.toFinset.card := by
  have h1 : (dedupKeys l).toFinset = l.toFinset := by
    apply Finset.ext
    intro a
    simp [List.mem_toFinset, dedupKeys_mem]
  rw [← h1, List.toFinset_card_of_nodup (dedupKeys_nodup l)]

theorem filter_isSome_filterMap (f : β → Option γ) :
    ∀ (l : List β),
      (l.filter (fun b => (f b).isSome)).filterMap f = (l.map f).filterMap id := by
  intro l
  induction l with
  | nil => rfl
  | cons b bs ih =>
    cases hf : f b with
    | none => simp [List.filter_cons, List.filterMap_cons, hf, ih]
    | some c => simp [List.filter_cons, List.filterMap_cons, hf, ih]

theorem filterMap_id_map_some (l : List α) :
    (l.map some).filterMap id = l := by
  induction l with
  | nil => rfl
  | cons a as ih => simp [List.filterMap_cons, ih]

/-! ## Lemmas on the column assignment `setDfCol` -/

theorem zip_append_cells :
    ∀ (rows : List (Row α)) (vals : List (Option α)) (L : Nat),
      (∀ r ∈ rows, r.length = L) → vals.length = rows.length →
      ((rows.zip vals).map (fun p => p.1 ++ [p.2])).map (fun r => cell r L) = vals := by
  intro rows
  induction rows with
  | nil =>
    intro vals L _ hlen
    cases vals with
    | nil => rfl
    | cons v vs => simp at hlen
  | cons r rs ih =>
    intro vals L hwf hlen
    cases vals with
    | nil => simp at hlen
    | cons v vs =>
      simp only [List.zip_cons_cons, List.map_cons, List.cons.injEq]
      constructor
      · rw [← hwf r (List.mem_cons_self r rs)]
        exact cell_append_len
      · exact ih vs L (fun r' hr' => hwf r' (List.mem_cons_of_mem r hr'))
          (by simpa using hlen)

theorem zip_set_cells :
    ∀ (rows : List (Row α)) (vals : List (Option α)) (k L : Nat),
      k < L → (∀ r ∈ rows, r.length = L) → vals.length = rows.length →
      ((rows.zip vals).map (fun p => p.1.set k p.2)).map (fun r => cell r k) = vals := by
  intro rows
  induction rows with
  | nil =>
    intro vals L k _ _ hlen
    cases vals with
    | nil => rfl
    | cons v vs => simp at hlen
  | cons r rs ih =>
    intro vals k L hk hwf hlen
    cases vals with
    | nil => simp at hlen
    | cons v vs =>
      simp only [List.zip_cons_cons, List.map_cons, List.cons.injEq]
      constructor
      · exact cell_set_self (by rw [hwf r (List.mem_cons_self r rs)]; exact hk)
      · exact ih vs k L hk (fun r' hr' => hwf r' (List.mem_cons_of_mem r hr'))
          (by simpa using hlen)

theorem zip_append_cells_lt :
    ∀ (rows : List (Row α)) (vals : List (Option α)) (i L : Nat),
      i < L → (∀ r ∈ rows, r.length = L) → vals.length = rows.length →
      ((rows.zip vals).map (fun p => p.1 ++ [p.2])).map (fun r => cell r i) =
        rows.map (fun r => cell r i) := by
  intro rows
  induction rows with
  | nil =>
    intro vals i L _ _ _
    simp
  | cons r rs ih =>
    intro vals i L hi hwf hlen
    cases vals with
    | nil => simp at hlen
    | cons v vs =>
      simp only [List.zip_cons_cons, List.map_cons, List.cons.injEq]
      constructor
      · exact cell_append_lt (by rw [hwf r (List.mem_cons_self r rs)]; exact hi)
      · exact ih vs i L hi (fun r' hr' => hwf r' (List.mem_cons_of_mem r hr'))
          (by simpa using hlen)

theorem zip_set_cells_ne :
    ∀ (rows : List (Row α)) (vals : List (Option α)) (k i : Nat),
      k ≠ i → vals.length = rows.length →
      ((rows.zip vals).map (fun p => p.1.set k p.2)).map (fun r => cell r i) =
        rows.map (fun r => cell r i) := by
  intro rows
  induction rows with
  | nil => intro vals k i _ _; simp
  | cons r rs ih =>
    intro vals k i hk hlen
    cases vals with
    | nil => simp at hlen
    | cons v vs =>
      simp only [List.zip_cons_cons, List.map_cons, List.cons.injEq]
      exact ⟨cell_set_ne hk, ih vs k i hk (by simpa using hlen)⟩

theorem setDfCol_cells (cols : List String) (rows : List (Row α)) (name : String)
    (vals : List (Option α)) (hwf : ∀ r ∈ rows, r.length = cols.length)
    (hlen : vals.length = rows.length) :
    ((setDfCol cols rows name vals).2).map
      (fun r => cell r (colPos (setDfCol cols rows name vals).1 name)) = vals := by
  unfold setDfCol
  cases hk : idxHit (fun c => decide (c = name)) cols with
  | some k =>
    simp only
    have hkpos : colPos cols name = k := by simp [colPos, hk]
    rw [hkpos]
    exact zip_set_cells rows vals k cols.length (idxHit_lt hk) hwf hlen
  | none =>
    simp only
    have hpos : colPos (cols ++ [name]) name = cols.length := by
      simp [colPos, idxHit_append_self hk]
    rw [hpos]
    exact zip_append_cells rows vals cols.length hwf hlen

theorem setDfCol_name_mem (cols : List String) (rows : List (Row α))
    (name : String) (vals : List (Option α)) :
    name ∈ (setDfCol cols rows name vals).1 := by
  unfold setDfCol
  cases hk : idxHit (fun c => decide (c = name)) cols with
  | some k =>
    simp only
    obtain ⟨hlt, hp, -⟩ := idxHit_get hk
    exact (of_decide_eq_true hp) ▸ List.get_mem cols k hlt
  | none =>
    simp only
    exact List.mem_append_right cols (List.mem_singleton.2 rfl)

theorem setDfCol_wf (cols : List String) (rows : List (Row α)) (name : String)
    (vals : List (Option α)) (hwf : ∀ r ∈ rows, r.length = cols.length) :
    ∀ r ∈ (setDfCol cols rows name vals).2,
      r.length = (setDfCol cols rows name vals).1.length := by
  unfold setDfCol
  cases hk : idxHit (fun c => decide (c = name)) cols with
  | some k =>
    simp only
    intro r hr
    obtain ⟨p, hp, rfl⟩ := List.mem_map.1 hr
    rw [List.length_set]
    exact hwf p.1 (List.of_mem_zip hp).1
  | none =>
    simp only
    intro r hr
    obtain ⟨p, hp, rfl⟩ := List.mem_map.1 hr
    simp [hwf p.1 (List.of_mem_zip hp).1]

theorem setDfCol_preserve (cols : List String) (rows : List (Row α))
    (name : String) (vals : List (Option α)) (n' : String) (hne : n' ≠ name)
    (hmem : n' ∈ cols) (hwf : ∀ r ∈ rows, r.length = cols.length)
    (hlen : vals.length = rows.length) :
    n' ∈ (setDfCol cols rows name vals).1
    ∧ colPos (setDfCol cols rows name vals).1 n' = colPos cols n'
    ∧ ((setDfCol cols rows name vals).2).map (fun r => cell r (colPos cols n')) =
        rows.map (fun r => cell r (colPos cols n')) := by
  unfold setDfCol
  cases hk : idxHit (fun c => decide (c = name)) cols with
  | some k =>
    simp only
    refine ⟨hmem, by trivial, ?_⟩
    obtain ⟨hklt, hkp, -⟩ := idxHit_get hk
    obtain ⟨hplt, hpget⟩ := colPos_get hmem
    have hkne : k ≠ colPos cols n' := by
      intro hcontr
      subst hcontr
      exact hne (hpget.symm.trans (of_decide_eq_true hkp))
    exact zip_set_cells_ne rows vals k (colPos cols n') hkne hlen
  | none =>
    simp only
    cases hi : idxHit (fun c => decide (c = n')) cols with
    | none => exact absurd hi (idxHit_isSome_of_mem hmem (by simp))
    | some i =>
      have h1 : colPos (cols ++ [name]) n' = colPos cols n' := by
        simp [colPos, hi, idxHit_append_some [name] hi]
      refine ⟨List.mem_append_left [name] hmem, h1, ?_⟩
      have hilt : i < cols.length := idxHit_lt hi
      have hpos : colPos cols n' = i := by simp [colPos, hi]
      rw [hpos]
      exact zip_append_cells_lt rows vals i cols.length hilt hwf hlen

/-! ## Lemmas on the reducer's stages -/

theorem prepped_wf [DecidableEq α] (df : DataFrame α) (ci : Nat) (hwf : df.WF) :
    ∀ r ∈ (prepped df ci).2, r.length = (prepped df ci).1.length := by
  unfold prepped
  exact setDfCol_wf _ _ _ _ (fun r hr => hwf r (List.mem_of_mem_filter hr))

theorem prepped_cells [DecidableEq α] (df : DataFrame α) (ci : Nat) (hwf : df.WF) :
    (prepped df ci).2.map (fun r => cell r (cidPos df ci)) =
      ffill ((dropEmptyRows df.rows).map (fun r => cell r ci)) := by
  unfold cidPos prepped
  exact setDfCol_cells _ _ _ _ (fun r hr => hwf r (List.mem_of_mem_filter hr))
    (by rw [ffill_length, List.length_map])

theorem cid_mem_prepped [DecidableEq α] (df : DataFrame α) (ci : Nat) :
    "compound_id" ∈ (prepped df ci).1 :=
  setDfCol_name_mem _ _ _ _

theorem rows2_cids [DecidableEq α] (df : DataFrame α) (ci : Nat) (hwf : df.WF) :
    (rows2Of df ci).filterMap (fun r => cell r (cidPos df ci)) =
      (ffill ((dropEmptyRows df.rows).map (fun r => cell r ci))).filterMap id := by
  unfold rows2Of
  rw [filter_isSome_filterMap (fun r => cell r (cidPos df ci)) (prepped df ci).2,
    prepped_cells df ci hwf]

theorem pickTop_cid [LinearOrder α] [DecidableEq α] {rows : List (Row α)}
    {ci qi : Nat} {k : α} {r : Row α} (h : pickTop rows ci qi k = some r) :
    cell r ci = some k ∧ r ∈ rows := by
  unfold pickTop at h
  split at h
  · exact absurd h (by simp)
  · obtain ⟨hmem, hp⟩ := findFirst_mem h
    have := List.mem_filter.1 hmem
    exact ⟨of_decide_eq_true this.2, this.1⟩

theorem extract_top_hits_ok [LinearOrder α] [DecidableEq α] {df out : DataFrame α}
    (hok : extract_top_hits df = Except.ok out) :
    ∃ ci qi rs, compoundIdxOf df.cols = some ci
      ∧ qualityIdxOf df.cols = some qi
      ∧ seqMap (pickTop (rows2Of df ci) (cidPos df ci) qi) (skeysOf df ci) = some rs
      ∧ out = ⟨(prepped df ci).1, rs⟩ := by
  unfold extract_top_hits at hok
  split at hok
  · exact absurd hok (by simp)
  · rename_i ci hci
    split at hok
    · exact absurd hok (by simp)
    · rename_i qi hqi
      unfold thStage at hok
      split at hok
      · exact absurd hok (by simp)
      · rename_i rs hrs
        simp only [Except.ok.injEq] at hok
        exact ⟨ci, qi, rs, hci, hqi, hrs, hok.symm⟩

theorem extract_top_hits_wf [LinearOrder α] [DecidableEq α] {df out : DataFrame α}
    (hwf : df.WF) (hok : extract_top_hits df = Except.ok out) : out.WF := by
  obtain ⟨ci, qi, rs, -, -, hrs, rfl⟩ := extract_top_hits_ok hok
  intro r hr
  obtain ⟨k, -, hpk⟩ := seqMap_mem hrs r hr
  have hr2 : r ∈ rows2Of df ci := (pickTop_cid hpk).2
  exact prepped_wf df ci hwf r (List.mem_of_mem_filter hr2)

/-! ## Sheet extraction (`load_libres_sheet`, lines 45–75) -/

/-- A workbook: its sheets, named, in the reader's enumeration order.  The
engine choice by file extension (`xlrd` for `.xls`) and the `header=8` row
convention live inside `pd.ExcelFile`/`pd.read_excel`; here each sheet is
modelled already in tabular form. -/
structure Workbook (α : Type) where
  sheets : List (String × DataFrame α)
deriving DecidableEq

/-- The failure raised on line 70 (`ValueError`, the design's
`SheetNotFoundError`): no sheet named `LibRes`, reporting the sheet names
actually present. -/
inductive SheetError where
  | sheetNotFound (available : List String)
deriving DecidableEq, Repr

/-- Model of `load_libres_sheet` (lines 45–75): the first sheet whose name
lower-cases to `"libres"`, or the error naming every sheet. -/
def load_libres_sheet (wb : Workbook α) : Except SheetError (DataFrame α) :=
  match findFirst (fun p => decide (lowerStr p.1 = "libres")) wb.sheets with
  | none => Except.error (SheetError.sheetNotFound (wb.sheets.map Prod.fst))
  | some p => Except.ok p.2

theorem load_wf {wb : Workbook α} {raw : DataFrame α}
    (hwf : ∀ p ∈ wb.sheets, DataFrame.WF p.2)
    (h : load_libres_sheet wb = Except.ok raw) : raw.WF := by
  unfold load_libres_sheet at h
  split at h
  · exact absurd h (by simp)
  · rename_i p hp
    simp only [Except.ok.injEq] at h
    exact h ▸ hwf p (findFirst_mem hp).1

/-! ## Column normalisation and the orchestrator (`clean_rpw_file`,
lines 116–161) -/

/-- The fixed rename lookup (lines 129–153), verbatim. -/
def rename_map : List (String × String) :=
  [("Compound number (#)", "compound_number"),
   ("Compound", "compound_number"),
   ("RT (min)", "rt_min"),
   ("Scan number (#)", "scan_number"),
   ("Scan numb", "scan_number"),
   ("Area (Ab*s)", "area_abs"),
   ("Baseline Heigth (Ab)", "baseline_height"),
   ("Baseline H", "baseline_height"),
   ("Absolute Heigth (Ab)", "absolute_height"),
   ("Absolute H", "absolute_height"),
   ("Peak Width 50% (min)", "peak_width_50"),
   ("Peak Widt", "peak_width_50"),
   ("Hit Number", "hit_number"),
   ("Hit Numbe", "hit_number"),
   ("Hit Name", "hit_name"),
   ("Quality", "quality"),
   ("Mol Weight (amu)", "mol_weight_amu"),
   ("CAS Number", "cas_number"),
   ("Library", "library"),
   ("Entry Number", "entry_number"),
   ("Entry Numb", "entry_number")]

/-- The dictionary lookup behind `df.rename(columns=rename_map)`. -/
def lookupRename (c : String) : Option String :=
  (findFirst (fun p => decide (p.1 = c)) rename_map).map Prod.snd

/-- `df.rename(columns=...)` on one column name: mapped when present in the
lookup, passed through unchanged otherwise. -/
def renameCol (c : String) : String := (lookupRename c).getD c

/-- Cell values of a cleaned table: the sheet's own numeric values together
with the string-valued metadata attached from the file name (numbers
ordered before strings; only like values are ever compared in a run). -/
abbrev Val := Lex (ℚ ⊕ String)

def Val.num (q : ℚ) : Val := toLex (Sum.inl q)

def Val.str (s : String) : Val := toLex (Sum.inr s)

instance : DecidableEq Val := inferInstanceAs (DecidableEq (ℚ ⊕ String))

/-- Lines 157–159: the metadata fields, in the dict's insertion order, with
the constant cell each one contributes to its column. -/
def metaPairs (filename : String) : List (String × Option Val) :=
  [("group", ((extract_metadata_from_filename filename).group).map Val.str),
   ("timepoint", ((extract_metadata_from_filename filename).timepoint).map Val.str),
   ("adsorbent", ((extract_metadata_from_filename filename).adsorbent).map Val.str),
   ("sample", ((extract_metadata_from_filename filename).sample).map (fun n => Val.num n)),
   ("source_file", some (Val.str (extract_metadata_from_filename filename).source_file))]

/-- Lines 158–159: `for key, val in meta.items(): df_hits[key] = val` —
one constant-valued column assignment per metadata field. -/
def attachMeta (cols : List String) (rows : List (Row Val)) :
    List (String × Option Val) → List String × List (Row Val)
  | [] => (cols, rows)
  | m :: ms =>
    attachMeta (setDfCol cols rows m.1 (List.replicate rows.length m.2)).1
      (setDfCol cols rows m.1 (List.replicate rows.length m.2)).2 ms

theorem findFirst_none {p : β → Bool} :
    ∀ {l : List β}, findFirst p l = none ↔ ∀ b ∈ l, p b = false := by
  intro l
  induction l with
  | nil => simp [findFirst]
  | cons b bs ih =>
    constructor
    · intro h c hc
      simp only [findFirst] at h
      by_cases hb : p b
      · rw [if_pos hb] at h; simp at h
      · rcases List.mem_cons.1 hc with rfl | hc
        · exact Bool.eq_false_iff.2 hb
        · rw [if_neg hb] at h; exact ih.1 h c hc
    · intro h
      have hb : p b = false := h b (List.mem_cons_self b bs)
      simp only [findFirst, hb, Bool.false_eq_true, if_false]
      exact ih.2 (fun c hc => h c (List.mem_cons_of_mem b hc))

theorem matchTimeAux_none :
    ∀ {l : List Char}, (∀ c ∈ l, c.isDigit = false) → matchTimeAux l = none := by
  intro l
  induction l with
  | nil => intro _; rfl
  | cons c rest ih =>
    intro h
    have hc : c.isDigit = false := h c (List.mem_cons_self c rest)
    simp only [matchTimeAux, hc, Bool.false_eq_true, if_false]
    exact ih (fun d hd => h d (List.mem_cons_of_mem c hd))

theorem matchSampleAux_none :
    ∀ {l : List Char}, ¬ HasSub "char".toList l → ¬ HasSub "dvb".toList l →
      matchSampleAux l = none := by
  intro l
  induction l with
  | nil => intro _ _; rfl
  | cons b bs ih =>
    intro hc hd
    have h1 : chPre "-char-".toList (b :: bs) = false := by
      apply Bool.eq_false_iff.2
      intro hpre
      obtain ⟨t, ht⟩ := (chPre_iff _ _).1 hpre
      exact hc ⟨['-'], '-' :: t, by rw [ht]; rfl⟩
    have h2 : chPre "-dvb-".toList (b :: bs) = false := by
      apply Bool.eq_false_iff.2
      intro hpre
      obtain ⟨t, ht⟩ := (chPre_iff _ _).1 hpre
      exact hd ⟨['-'], '-' :: t, by rw [ht]; rfl⟩
    simp only [matchSampleAux, h1, h2, Bool.false_eq_true, if_false]
    exact ih (fun h => hc (HasSub.of_cons h)) (fun h => hd (HasSub.of_cons h))

theorem renameCol_cid_iff (c : String) :
    renameCol c = "compound_id" ↔ c = "compound_id" := by
  constructor
  · intro h
    unfold renameCol lookupRename at h
    cases hf : findFirst (fun p => decide (p.1 = c)) rename_map with
    | none => rw [hf] at h; simpa using h
    | some pr =>
      rw [hf] at h
      simp only [Option.map_some', Option.getD_some] at h
      have hmem := (findFirst_mem hf).1
      have hall : ∀ p ∈ rename_map, p.2 ≠ "compound_id" := by decide
      exact absurd h (hall pr hmem)
  · rintro rfl
    rfl

theorem colPos_map_renameCol (cols : List String) :
    colPos (cols.map renameCol) "compound_id" = colPos cols "compound_id" := by
  unfold colPos
  rw [idxHit_map cols,
    idxHit_congr (fun b _ => decide_eq_decide.2 (renameCol_cid_iff b)),
    List.length_map]

/-- A failure of either stage, propagated unmodified (lines 125–127). -/
inductive CleanError where
  | sheet (e : SheetError)
  | reduce (e : THError)
deriving DecidableEq, Repr

/-- Model of `clean_rpw_file` (lines 116–161): extract the LibRes sheet,
reduce to top hits, rename columns, attach the filename metadata. -/
def clean_rpw_file (wb : Workbook Val) (filename : String) :
    Except CleanError (DataFrame Val) :=
  match load_libres_sheet wb with
  | Except.error e => Except.error (CleanError.sheet e)
  | Except.ok df_raw =>
    match extract_top_hits df_raw with
    | Except.error e => Except.error (CleanError.reduce e)
    | Except.ok hits =>
      Except.ok ⟨(attachMeta (hits.cols.map renameCol) hits.rows (metaPairs filename)).1,
        (attachMeta (hits.cols.map renameCol) hits.rows (metaPairs filename)).2⟩

theorem metaPairs_names (fn : String) : ∀ q ∈ metaPairs fn, q.1 ≠ "compound_id" := by
  intro q hq
  simp only [metaPairs, List.mem_cons, List.not_mem_nil, or_false] at hq
  rcases hq with rfl | rfl | rfl | rfl | rfl
  · exact (by decide : ("group" : String) ≠ "compound_id")
  · exact (by decide : ("timepoint" : String) ≠ "compound_id")
  · exact (by decide : ("adsorbent" : String) ≠ "compound_id")
  · exact (by decide : ("sample" : String) ≠ "compound_id")
  · exact (by decide : ("source_file" : String) ≠ "compound_id")

theorem attachMeta_preserve (n' : String) :
    ∀ (ms : List (String × Option Val)) (cols : List String) (rows : List (Row Val)),
      (∀ q ∈ ms, q.1 ≠ n') → n' ∈ cols → (∀ r ∈ rows, r.length = cols.length) →
      n' ∈ (attachMeta cols rows ms).1
      ∧ ((attachMeta cols rows ms).2).map
          (fun r => cell r (colPos (attachMeta cols rows ms).1 n')) =
        rows.map (fun r => cell r (colPos cols n')) := by
  intro ms
  induction ms with
  | nil => intro cols rows _ hmem _; exact ⟨hmem, rfl⟩
  | cons m ms ih =>
    intro cols rows hne hmem hwf
    simp only [attachMeta]
    obtain ⟨h1, h2, h3⟩ := setDfCol_preserve cols rows m.1
      (List.replicate rows.length m.2) n'
      (Ne.symm (hne m (List.mem_cons_self m ms))) hmem hwf
      (List.length_replicate _ _)
    obtain ⟨g1, g2⟩ := ih (setDfCol cols rows m.1 (List.replicate rows.length m.2)).1
      (setDfCol cols rows m.1 (List.replicate rows.length m.2)).2
      (fun q hq => hne q (List.mem_cons_of_mem m hq)) h1
      (setDfCol_wf cols rows m.1 (List.replicate rows.length m.2) hwf)
    refine ⟨g1, ?_⟩
    rw [g2, h2, h3]

/-! ## Example data used by the claim theorems and witnesses -/

/-- The specification's three-row LibRes example sheet. -/
def exDf : DataFrame Nat :=
  ⟨["Compound", "Quality"],
   [[some 1, some 80], [none, some 95], [some 2, some 60]]⟩

/-- The table the reducer produces from `exDf`: the second input row (whose
compound cell was null and forward-fills to 1) wins group 1 with quality 95,
and the third row is group 2's only hit. -/
def exOut : DataFrame Nat :=
  ⟨["Compound", "Quality", "compound_id"],
   [[none, some 95, some 1], [some 2, some 60, some 2]]⟩

/-- A two-row group tying at quality 5, for the tie-break witness. -/
def tieRows : List (Row Nat) := [[some 1, some 5], [some 1, some 5]]

/-! ## The claims -/

/-- C1: on the LibRes-style sheet with rows
`[(compound=1, quality=80), (compound=null, quality=95), (compound=2, quality=60)]`,
forward-fill and reduction yield exactly two rows: compound 1 with
quality 95 (the inherited second row outranks the first) and compound 2
with quality 60. -/
theorem c1_example_reduction : extract_top_hits exDf = Except.ok exOut := by
  rfl

/-- C2 (counterexample): the claim's expected sample numbers are wrong — on
`"Healthy_24h_char-1.xlsx"` the parser returns `sample = none`, not
`some 1` (and on `"Infested_MASA_72h_dvb-3.xls"` it returns `none`, not
`some 3`): the regex `-(char|dvb)-(\d+)` requires a hyphen before the
adsorbent token, but these names have an underscore there. -/
theorem c2_sample_counterexample :
    (extract_metadata_from_filename "Healthy_24h_char-1.xlsx").sample ≠ some 1
    ∧ (extract_metadata_from_filename "Infested_MASA_72h_dvb-3.xls").sample ≠ some 3 := by
  exact ⟨by decide, by decide⟩

/-- C2 (amended): the parser maps the two example file names to the stated
group, timepoint and adsorbent, with `sample = none` in both cases, because
the `-<char|dvb>-<digits>` pattern (hyphen before the adsorbent token) is
absent — the names carry `_char-1` / `_dvb-3` with an underscore. -/
theorem c2_examples_amended :
    extract_metadata_from_filename "Healthy_24h_char-1.xlsx" =
      { group := some "healthy", timepoint := some "24h", adsorbent := some "char",
        sample := none, source_file := "Healthy_24h_char-1.xlsx" }
    ∧ extract_metadata_from_filename "Infested_MASA_72h_dvb-3.xls" =
      { group := some "infested+masa", timepoint := some "72h", adsorbent := some "dvb",
        sample := none, source_file := "Infested_MASA_72h_dvb-3.xls" } := by
  exact ⟨by decide, by decide⟩

/-- C7: forward-fill is idempotent — on any column of optional values,
filling twice equals filling once. -/
theorem c7_ffill_idempotent (α : Type) (l : List (Option α)) :
    ffill (ffill l) = ffill l :=
  ffillAux_idem none l

/-- C9: the filename parser is total and deterministic — it always returns
a record whose `source_file` is the input verbatim, equal inputs give equal
outputs, and a pattern absent from the name yields `none` for its field
rather than a failure (no digits → no timepoint; neither `char` nor `dvb`
→ no adsorbent and no sample number; neither `healthy` nor `infested` →
no group). -/
theorem c9_parser_total (s : String) :
    (extract_metadata_from_filename s).source_file = s
    ∧ (∀ t, t = s → extract_metadata_from_filename t = extract_metadata_from_filename s)
    ∧ ((∀ c ∈ (lowerStr s).toList, c.isDigit = false) →
        (extract_metadata_from_filename s).timepoint = none)
    ∧ (¬ HasSub "char".toList (lowerStr s).toList →
        ¬ HasSub "dvb".toList (lowerStr s).toList →
        (extract_metadata_from_filename s).adsorbent = none
        ∧ (extract_metadata_from_filename s).sample = none)
    ∧ (¬ HasSub "healthy".toList (lowerStr s).toList →
        ¬ HasSub "infested".toList (lowerStr s).toList →
        (extract_metadata_from_filename s).group = none) := by
  refine ⟨rfl, fun t ht => by rw [ht], ?_, ?_, ?_⟩
  · intro h
    show (matchTimeAux (lowerStr s).toList).map _ = none
    rw [matchTimeAux_none h]
    rfl
  · intro hc hd
    have hc' : strHas "char" (lowerStr s) = false :=
      Bool.eq_false_iff.2 (fun ht => hc ((chSub_iff _ _).1 ht))
    have hd' : strHas "dvb" (lowerStr s) = false :=
      Bool.eq_false_iff.2 (fun ht => hd ((chSub_iff _ _).1 ht))
    constructor
    · show (if strHas "char" (lowerStr s) then some "char"
        else if strHas "dvb" (lowerStr s) then some "dvb" else none) = none
      rw [hc', hd']
      rfl
    · show matchSampleAux (lowerStr s).toList = none
      exact matchSampleAux_none hc hd
  · intro hh hi
    have hh' : strHas "healthy" (lowerStr s) = false :=
      Bool.eq_false_iff.2 (fun ht => hh ((chSub_iff _ _).1 ht))
    have hi' : strHas "infested" (lowerStr s) = false :=
      Bool.eq_false_iff.2 (fun ht => hi ((chSub_iff _ _).1 ht))
    show (if strHas "healthy" (lowerStr s) ∧ ¬ strHas "infested" (lowerStr s) then _
      else if strHas "infested" (lowerStr s) then _ else none) = none
    rw [if_neg (by rw [hh']; simp), if_neg (by rw [hi']; simp)]

/-- C5: the sheet extractor fails with the sheet-not-found error carrying
the available sheet names exactly when no sheet name lower-cases to
`"libres"`; and when a match exists, the first match in enumeration order
is the sheet loaded (so no error is produced). -/
theorem c5_sheet_selection (wb : Workbook α) :
    (load_libres_sheet wb =
        Except.error (SheetError.sheetNotFound (wb.sheets.map Prod.fst))
      ↔ ∀ p ∈ wb.sheets, lowerStr p.1 ≠ "libres")
    ∧ (∀ i (hi : i < wb.sheets.length),
        lowerStr (wb.sheets.get ⟨i, hi⟩).1 = "libres" →
        (∀ j (hj : j < i), lowerStr (wb.sheets.get ⟨j, Nat.lt_trans hj hi⟩).1 ≠ "libres") →
        load_libres_sheet wb = Except.ok (wb.sheets.get ⟨i, hi⟩).2) := by
  constructor
  · unfold load_libres_sheet
    cases hf : findFirst (fun p => decide (lowerStr p.1 = "libres")) wb.sheets with
    | none =>
      simp only
      constructor
      · intro _ p hp
        exact of_decide_eq_false (findFirst_none.1 hf p hp)
      · intro _
        trivial
    | some p =>
      simp only
      constructor
      · intro h
        exact absurd h (by simp)
      · intro hall
        exfalso
        have hp := findFirst_mem hf
        exact hall p hp.1 (of_decide_eq_true hp.2)
  · intro i hi hmatch hfirst
    unfold load_libres_sheet
    rw [findFirst_at hi (decide_eq_true hmatch)
      (fun j hj => decide_eq_false (hfirst j hj))]

/-- C6: the reducer fails with the missing-compound-column error carrying
all available column names exactly when no column name contains
`"compound"` case-insensitively; otherwise the column position it resolves
is the first one in declared order whose name matches. -/
theorem c6_compound_column (df : DataFrame α) [LinearOrder α] [DecidableEq α] :
    (extract_top_hits df = Except.error (THError.missingCompound df.cols)
      ↔ ∀ c ∈ df.cols, ¬ HasSub "compound".toList (lowerStr c).toList)
    ∧ (∀ i, compoundIdxOf df.cols = some i →
        ∃ hi : i < df.cols.length,
          isCompoundCol (df.cols.get ⟨i, hi⟩) = true
          ∧ ∀ j (hj : j < i),
              isCompoundCol (df.cols.get ⟨j, Nat.lt_trans hj hi⟩) = false) := by
  constructor
  · constructor
    · intro h c hc hsub
      have hcol : isCompoundCol c = true := (chSub_iff _ _).2 hsub
      unfold extract_top_hits at h
      split at h
      · rename_i hci
        rw [idxHit_none.1 hci c hc] at hcol
        exact Bool.false_ne_true hcol
      · split at h
        · simp at h
        · unfold thStage at h
          split at h
          · simp at h
          · simp at h
    · intro hall
      have hci : compoundIdxOf df.cols = none :=
        idxHit_none.2 (fun c hc =>
          Bool.eq_false_iff.2 (fun ht => hall c hc ((chSub_iff _ _).1 ht)))
      unfold extract_top_hits
      rw [hci]
  · intro i hci
    exact idxHit_get hci

/-- C4: within any compound group whose maximum quality is attained by two
or more rows, the reducer's `idxmax` selection is the row at the lowest
index among the maxima (the first in the table's current order); the
embedding is a pure function, so the same input always yields this same
selection. -/
theorem c4_tie_break [LinearOrder α] [DecidableEq α] (rows : List (Row α))
    (ci qi : Nat) (k m : α) (r : Row α)
    (hmax : maxQual (groupOf rows ci k) qi = some m)
    (htie : 2 ≤ ((groupOf rows ci k).filter
      (fun r => decide (cell r qi = some m))).length)
    (hpick : pickTop rows ci qi k = some r) :
    ∃ i, ∃ hi : i < (groupOf rows ci k).length,
      (groupOf rows ci k).get ⟨i, hi⟩ = r ∧ cell r qi = some m
      ∧ ∀ j (hj : j < i),
          cell ((groupOf rows ci k).get ⟨j, Nat.lt_trans hj hi⟩) qi ≠ some m := by
  unfold pickTop at hpick
  split at hpick
  · exact absurd hpick (by simp)
  · rename_i m' hm'
    have hmm : m' = m := Option.some.inj (hm'.symm.trans hmax)
    subst hmm
    obtain ⟨i, hi, hget, hp, hfirst⟩ := findFirst_some hpick
    refine ⟨i, hi, hget, of_decide_eq_true hp, ?_⟩
    intro j hj hcontr
    have := hfirst j hj
    rw [decide_eq_true hcontr] at this
    exact Bool.noConfusion this

/-- C4 (witness): a concrete two-row tie at quality 5 — the reducer keeps
the first of the two tied rows. -/
theorem c4_tie_break_witness :
    maxQual (groupOf tieRows 0 1) 1 = some 5
    ∧ 2 ≤ ((groupOf tieRows 0 1).filter
        (fun r => decide (cell r 1 = some 5))).length
    ∧ pickTop tieRows 0 1 1 = some [some 1, some 5]
    ∧ ∃ i, ∃ hi : i < (groupOf tieRows 0 1).length,
        (groupOf tieRows 0 1).get ⟨i, hi⟩ = [some 1, some 5]
        ∧ cell [some 1, some 5] 1 = some 5
        ∧ ∀ j (hj : j < i),
            cell ((groupOf tieRows 0 1).get ⟨j, Nat.lt_trans hj hi⟩) 1 ≠ some 5 :=
  ⟨by decide, by decide, by decide,
    c4_tie_break tieRows 0 1 1 5 [some 1, some 5] (by decide) (by decide) (by decide)⟩

/-- C8: whenever the reducer succeeds, the output's `compound_id` column is
all non-null and its values are in ascending order of the identifier's
linear order. -/
theorem c8_sorted_output [LinearOrder α] [DecidableEq α] (df out : DataFrame α)
    (hok : extract_top_hits df = Except.ok out) :
    (∀ v ∈ colVals out "compound_id", v.isSome = true)
    ∧ List.Sorted (· ≤ ·) ((colVals out "compound_id").filterMap id) := by
  obtain ⟨ci, qi, rs, hci, hqi, hrs, rfl⟩ := extract_top_hits_ok hok
  have hcv : colVals (⟨(prepped df ci).1, rs⟩ : DataFrame α) "compound_id" =
      (skeysOf df ci).map some := by
    show rs.map (fun r => cell r (cidPos df ci)) = (skeysOf df ci).map some
    exact seqMap_map hrs (fun k r hkr => (pickTop_cid hkr).1)
  constructor
  · rw [hcv]
    intro v hv
    obtain ⟨k, -, rfl⟩ := List.mem_map.1 hv
    rfl
  · rw [hcv, filterMap_id_map_some]
    unfold skeysOf
    exact List.sorted_insertionSort (· ≤ ·) _

/-- C8 (witness): the example sheet's reduced output has an all-non-null,
ascending `compound_id` column. -/
theorem c8_sorted_output_witness :
    extract_top_hits exDf = Except.ok exOut
    ∧ ((∀ v ∈ colVals exOut "compound_id", v.isSome = true)
       ∧ List.Sorted (· ≤ ·) ((colVals exOut "compound_id").filterMap id)) :=
  ⟨by rfl, c8_sorted_output exDf exOut (by rfl)⟩

/-- C3: whenever the reducer succeeds on a well-formed sheet, the number of
output rows equals the number of distinct non-null compound identifiers
obtained after dropping all-empty rows and forward-filling the compound
column. -/
theorem c3_row_count [LinearOrder α] [DecidableEq α] (df out : DataFrame α)
    (hwf : df.WF) (hok : extract_top_hits df = Except.ok out) :
    out.rows.length = ffilledDistinctCount df := by
  obtain ⟨ci, qi, rs, hci, hqi, hrs, rfl⟩ := extract_top_hits_ok hok
  show rs.length = ffilledDistinctCount df
  rw [seqMap_length hrs]
  unfold skeysOf
  rw [(List.perm_insertionSort (· ≤ ·) _).length_eq, dedupKeys_length,
    rows2_cids df ci hwf]
  unfold ffilledDistinctCount
  rw [hci]

/-- C3 (witness): the example sheet is well-formed, reduces successfully,
and its two output rows match its two distinct forward-filled compounds. -/
theorem c3_row_count_witness :
    exDf.WF ∧ extract_top_hits exDf = Except.ok exOut
    ∧ exOut.rows.length = ffilledDistinctCount exDf :=
  ⟨by decide, by rfl, c3_row_count exDf exOut (by decide) (by rfl)⟩

/-- C10: whenever the cleaner succeeds on a well-formed workbook, the
rename lookup has no entry for `"compound_id"`, and the reducer's
`compound_id` column — the forward-filled compound identifier of each kept
row — survives renaming and metadata attachment into the final output
unchanged. -/
theorem c10_compound_id_passthrough (wb : Workbook Val) (fn : String)
    (out : DataFrame Val) (hwf : ∀ p ∈ wb.sheets, DataFrame.WF p.2)
    (hok : clean_rpw_file wb fn = Except.ok out) :
    lookupRename "compound_id" = none
    ∧ ∃ raw hits, load_libres_sheet wb = Except.ok raw
        ∧ extract_top_hits raw = Except.ok hits
        ∧ "compound_id" ∈ hits.cols
        ∧ "compound_id" ∈ out.cols
        ∧ colVals out "compound_id" = colVals hits "compound_id" := by
  refine ⟨by rfl, ?_⟩
  unfold clean_rpw_file at hok
  split at hok
  · exact absurd hok (by simp)
  · rename_i raw hload
    split at hok
    · exact absurd hok (by simp)
    · rename_i hits hth
      simp only [Except.ok.injEq] at hok
      subst hok
      have hrwf : raw.WF := load_wf hwf hload
      have hhwf : hits.WF := extract_top_hits_wf hrwf hth
      have hmem : "compound_id" ∈ hits.cols := by
        obtain ⟨ci, qi, rs, hci, hqi, hrs, rfl⟩ := extract_top_hits_ok hth
        exact cid_mem_prepped raw ci
      have hmem' : "compound_id" ∈ hits.cols.map renameCol :=
        List.mem_map.2 ⟨"compound_id", hmem, by rfl⟩
      have hwfr : ∀ r ∈ hits.rows, r.length = (hits.cols.map renameCol).length := by
        intro r hr
        rw [List.length_map]
        exact hhwf r hr
      obtain ⟨g1, g2⟩ := attachMeta_preserve "compound_id" (metaPairs fn)
        (hits.cols.map renameCol) hits.rows (metaPairs_names fn) hmem' hwfr
      refine ⟨raw, hits, hload, hth, hmem, g1, ?_⟩
      show (attachMeta (hits.cols.map renameCol) hits.rows (metaPairs fn)).2.map
          (fun r => cell r (colPos
            (attachMeta (hits.cols.map renameCol) hits.rows (metaPairs fn)).1
            "compound_id")) =
        colVals hits "compound_id"
      rw [g2, colPos_map_renameCol hits.cols]
      rfl

/-- A two-sheet workbook over `Val` exercising the cleaner end to end. -/
def exWb : Workbook Val :=
  ⟨[("IntRes", ⟨["x"], []⟩),
    ("LibRes", ⟨["Compound", "Quality"],
      [[some (Val.num 1), some (Val.num 80)],
       [none, some (Val.num 95)],
       [some (Val.num 2), some (Val.num 60)]]⟩)]⟩

/-- The cleaned table `clean_rpw_file` produces from `exWb` and the file
name `"f"` (which carries no recoverable metadata, so the four parsed
metadata columns are null and `source_file` is `"f"`). -/
def exClean : DataFrame Val :=
  ⟨["compound_number", "quality", "compound_id",
    "group", "timepoint", "adsorbent", "sample", "source_file"],
   [[none, some (Val.num 95), some (Val.num 1),
     none, none, none, none, some (Val.str "f")],
    [some (Val.num 2), some (Val.num 60), some (Val.num 2),
     none, none, none, none, some (Val.str "f")]]⟩

/-- C10 (witness): the concrete workbook cleans successfully and keeps its
`compound_id` column through renaming and metadata attachment. -/
theorem c10_compound_id_passthrough_witness :
    (∀ p ∈ exWb.sheets, DataFrame.WF p.2)
    ∧ clean_rpw_file exWb "f" = Except.ok exClean
    ∧ (lookupRename "compound_id" = none
       ∧ ∃ raw hits, load_libres_sheet exWb = Except.ok raw
           ∧ extract_top_hits raw = Except.ok hits
           ∧ "compound_id" ∈ hits.cols
           ∧ "compound_id" ∈ exClean.cols
           ∧ colVals exClean "compound_id" = colVals hits "compound_id") :=
  ⟨by decide, by rfl,
    c10_compound_id_passthrough exWb "f" exClean (by decide) (by rfl)⟩

end Rpw
